import Mathlib

/-!
Verification of the conversation slicing/extraction tool
(`extract_conversation.py`, `slice_by_ranges.py`, `split_convo.py`).

The development shallowly embeds the pure algorithmic core of the three
scripts over a model of JSON values (`JVal`).  Python dicts are modelled
as insertion-ordered association lists (Python 3.7+ dict semantics), and
Python exceptions as `Except String`.  JSON numbers are modelled as
integers (no claim under verification depends on fractional values).
Python `list.sort(key=...)` (a stable sort) is modelled by
`List.mergeSort`, which is also stable.
-/

/-- Model of a JSON value as manipulated by the scripts.  Objects keep
their key/value pairs in insertion order, like Python dicts. -/
inductive JVal where
  | null : JVal
  | bool : Bool → JVal
  | num : Int → JVal
  | str : String → JVal
  | arr : List JVal → JVal
  | obj : List (String × JVal) → JVal
deriving BEq, Repr

/-- Python truthiness (`bool(x)`) for JSON-shaped values. -/
def JVal.truthy : JVal → Bool
  | .null => false
  | .bool b => b
  | .num n => n != 0
  | .str s => s != ""
  | .arr xs => !xs.isEmpty
  | .obj fs => !fs.isEmpty

/-- `d.get(k)` on an object, `none` when the key is absent (or the value is
not an object at all; callers guard the non-object case separately). -/
def JVal.get? (v : JVal) (k : String) : Option JVal :=
  match v with
  | .obj fs => fs.lookup k
  | _ => none

/-- Python `m.get(k)` with its default of `None`. -/
def pyGet (m : JVal) (k : String) : JVal := (m.get? k).getD .null

/-- Python `a or b`: `a` when truthy, else `b`. -/
def pyOr (a b : JVal) : JVal := if a.truthy then a else b

mutual
/-- Python `repr()` of a JSON-shaped value (string quoting is modelled
without escape sequences; no verified claim depends on those). -/
def pyRepr : JVal → String
  | .null => "None"
  | .bool b => if b then "True" else "False"
  | .num n => toString n
  | .str s => "\x27" ++ s ++ "\x27"
  | .arr xs => "[" ++ String.intercalate ", " (pyReprList xs) ++ "]"
  | .obj fs => "\x7b" ++ String.intercalate ", " (pyReprFields fs) ++ "\x7d"
def pyReprList : List JVal → List String
  | [] => []
  | x :: xs => pyRepr x :: pyReprList xs
def pyReprFields : List (String × JVal) → List String
  | [] => []
  | (k, v) :: fs => ("\x27" ++ k ++ "\x27: " ++ pyRepr v) :: pyReprFields fs
end

/-- Python `str()` of a JSON-shaped value. -/
def pyStr : JVal → String
  | .null => "None"
  | .bool b => if b then "True" else "False"
  | .num n => toString n
  | .str s => s
  | .arr xs => pyRepr (.arr xs)
  | .obj fs => pyRepr (.obj fs)

/-- One escaped character of `json.dumps` output (the common escapes;
other control characters are passed through in this model). -/
def jsonEscapeChar (c : Char) : String :=
  if c = '"' then "\\\"" else if c = '\\' then "\\\\"
  else if c = '\n' then "\\n" else if c = '\t' then "\\t"
  else if c = '\r' then "\\r" else String.singleton c

def jsonEscape (s : String) : String :=
  s.foldl (fun acc c => acc ++ jsonEscapeChar c) ""

mutual
/-- `json.dumps(v, ensure_ascii=False)` with default separators. -/
def jdumps : JVal → String
  | .null => "null"
  | .bool b => if b then "true" else "false"
  | .num n => toString n
  | .str s => "\"" ++ jsonEscape s ++ "\""
  | .arr xs => "[" ++ String.intercalate ", " (jdumpsList xs) ++ "]"
  | .obj fs => "\x7b" ++ String.intercalate ", " (jdumpsFields fs) ++ "\x7d"
def jdumpsList : List JVal → List String
  | [] => []
  | x :: xs => jdumps x :: jdumpsList xs
def jdumpsFields : List (String × JVal) → List String
  | [] => []
  | (k, v) :: fs => ("\"" ++ jsonEscape k ++ "\": " ++ jdumps v) :: jdumpsFields fs
end

/-- Lower-casing of one character (ASCII model of Python `str.lower`). -/
def pyLowerChar (c : Char) : Char :=
  if 'A' ≤ c ∧ c ≤ 'Z' then Char.ofNat (c.toNat + 32) else c

/-- Python `s.lower()` (ASCII model). -/
def pyLower (s : String) : String := String.mk (s.toList.map pyLowerChar)

/-- Splitting a character list on one separator character, keeping empty
groups, as Python `s.split(sep)` does for a one-character separator. -/
def splitOnChar (sep : Char) : List Char → List (List Char)
  | [] => [[]]
  | c :: rest =>
    let r := splitOnChar sep rest
    if c = sep then [] :: r
    else
      match r with
      | [] => [[c]]
      | g :: gs => (c :: g) :: gs

/-- Python `s.split(":")`. -/
def pySplitColon (s : String) : List String :=
  (splitOnChar ':' s.toList).map String.mk

/-- Contiguous-subsequence test on character lists: Python `needle in hay`. -/
def subSeq (needle : List Char) : List Char → Bool
  | [] => needle.isEmpty
  | c :: rest => needle.isPrefixOf (c :: rest) || subSeq needle rest

/-- Python substring containment `needle in hay` for strings. -/
def pyIn (needle hay : String) : Bool := subSeq needle.toList hay.toList

/-- Whitespace as stripped by Python `int()` and `str.strip()`. -/
def pyWs (c : Char) : Bool :=
  c = ' ' || c = '\t' || c = '\n' || c = '\r' || c = '\x0b' || c = '\x0c'

/-- Python `s.strip()` (ASCII-whitespace model). -/
def pyStrip (s : String) : String :=
  String.mk (((s.toList.dropWhile pyWs).reverse.dropWhile pyWs).reverse)

/-- Digit run of a Python integer literal: digits with single underscores
allowed between digits.  The `Bool` state records whether the previous
character was a digit.  Returns the digits with underscores removed. -/
def pyDigits : List Char → Bool → Option (List Char)
  | [], prevDigit => if prevDigit then some [] else none
  | c :: rest, prevDigit =>
    if c.isDigit then (pyDigits rest true).map (c :: ·)
    else if c = '_' && prevDigit then
      match rest with
      | d :: _ => if d.isDigit then pyDigits rest false else none
      | [] => none
    else none

def digitsToNat (cs : List Char) : Nat :=
  cs.foldl (fun n c => 10 * n + (c.toNat - 48)) 0

/-- Python `int(s)` on a string (success as `some`): optional surrounding
whitespace, optional sign, digits with underscores between digits. -/
def pyInt? (s : String) : Option Int :=
  let cs := ((s.toList.dropWhile pyWs).reverse.dropWhile pyWs).reverse
  match cs with
  | '+' :: rest => (pyDigits rest false).map (fun ds => (digitsToNat ds : Int))
  | '-' :: rest => (pyDigits rest false).map (fun ds => -(digitsToNat ds : Int))
  | rest => (pyDigits rest false).map (fun ds => (digitsToNat ds : Int))

/-- Update of an insertion-ordered dict: `d[k] = v` — replace in place if
the key exists, else append.  This is also the behaviour of a trailing
`"k": v` entry in a `{**m, "k": v}` dict literal. -/
def dictSet (fs : List (String × JVal)) (k : String) (v : JVal) :
    List (String × JVal) :=
  if fs.any (fun p => p.1 == k) then
    fs.map (fun p => if p.1 == k then (k, v) else p)
  else fs ++ [(k, v)]

/-- Same update operation for the `name -> count` dicts used for slice-name
disambiguation. -/
def countSet (fs : List (String × Nat)) (k : String) (v : Nat) :
    List (String × Nat) :=
  if fs.any (fun p => p.1 == k) then
    fs.map (fun p => if p.1 == k then (k, v) else p)
  else fs ++ [(k, v)]

/-- Python list slice `xs[a:b]` for non-negative bounds. -/
def pySlice (xs : List JVal) (a b : Nat) : List JVal := (xs.drop a).take (b - a)

/-- Python list slice `xs[a:b]` with integer bounds already clamped into
`[0, len xs]` by the callers below. -/
def pySliceInt (xs : List JVal) (a b : Int) : List JVal :=
  (xs.drop a.toNat).take (b - a).toNat

/-! ## `slice_by_ranges.py` — conversation loading (`load_convo`) -/

/-- Flat-list branch of `load_convo`: decorate one raw message with
`_index` and `_orig_id` (`{**m, "_index": len(messages), "_orig_id": mid}`
where `mid = m.get("id") or m.get("message_id") or m.get("uuid")`).
A non-object message raises in Python (`m.get` / `{**m}`). -/
def decorateFlat (i : Nat) (m : JVal) : Except String JVal :=
  match m with
  | .obj fs =>
      let mid := pyOr (pyOr (pyGet m "id") (pyGet m "message_id")) (pyGet m "uuid")
      .ok (.obj (dictSet (dictSet fs "_index" (.num (i : Int))) "_orig_id" mid))
  | _ => .error "TypeError: flat message is not an object"

/-- Flat-list branch of `load_convo` over the whole `messages` list. -/
def loadFlatMessages (ms : List JVal) : Except String (List JVal) :=
  ms.enum.mapM (fun p => decorateFlat p.1 p.2)

/-- `content_text` computation of the mapping branch: a dict content joins
its string `parts` with newlines, a string content is used verbatim,
anything else becomes `""`.  A truthy non-list `parts` value is modelled
as an error (Python would iterate it or raise, depending on its type; no
claim under verification exercises that corner). -/
def partsText (contentVal : JVal) : Except String String :=
  match contentVal with
  | .obj cfs =>
      match pyOr ((cfs.lookup "parts").getD .null) (.arr []) with
      | .arr parts =>
          .ok (String.intercalate "\n"
            (parts.filterMap fun p => match p with | .str s => some s | _ => none))
      | _ => .error "TypeError: parts is not a list"
  | .str s => .ok s
  | _ => .ok ""

/-- `msg.get("author", {}).get("role", "user")`; a present non-object
author raises `AttributeError` in Python. -/
def roleVal (msg : JVal) : Except String JVal :=
  match msg.get? "author" with
  | none => .ok (.str "user")
  | some (.obj afs) => .ok ((afs.lookup "role").getD (.str "user"))
  | some _ => .error "AttributeError: author is not an object"

/-- One iteration of the mapping-branch node loop of `load_convo`:
`none` when the node's message is skipped (`if not msg: continue`). -/
def extractNode (nodeId : String) (node : JVal) : Except String (Option JVal) :=
  match node with
  | .obj nfs =>
    let msg := (nfs.lookup "message").getD .null
    if msg.truthy then
      match msg with
      | .obj mfs => do
          let ctext ← partsText ((mfs.lookup "content").getD .null)
          let role ← roleVal (.obj mfs)
          .ok (some (.obj
            [("role", role),
             ("content", .str ctext),
             ("create_time", (mfs.lookup "create_time").getD .null),
             ("id", pyOr ((mfs.lookup "id").getD .null) .null),
             ("_node_id", .str nodeId)]))
      | _ => .error "AttributeError: message is not an object"
    else .ok none
  | _ => .error "AttributeError: mapping node is not an object"

/-- The `nodes` list accumulated by the mapping branch, in the encounter
order of the source mapping (skipped nodes contribute nothing). -/
def extractNodes : List (String × JVal) → Except String (List JVal)
  | [] => .ok []
  | p :: rest =>
    match extractNode p.1 p.2 with
    | .error e => .error e
    | .ok none => extractNodes rest
    | .ok (some m) =>
      match extractNodes rest with
      | .error e => .error e
      | .ok ms => .ok (m :: ms)

/-- Sort key of `nodes.sort(key=lambda m: m.get("create_time") or 0)`,
read as an integer.  Truthy non-numeric `create_time` values are mapped
to `0` here; theorems about the sort carry a typing hypothesis excluding
them (Python would compare such raw values directly). -/
def ctKey (m : JVal) : Int :=
  match pyOr (pyGet m "create_time") (.num 0) with
  | .num n => n
  | _ => 0

/-- The comparator corresponding to sorting by `ctKey` ascending. -/
def ctLE (a b : JVal) : Bool := ctKey a ≤ ctKey b

/-- `nodes.sort(key=lambda m: m.get("create_time") or 0)` — Python's sort
is stable, as is `List.mergeSort`. -/
def sortNodes (nodes : List JVal) : List JVal := nodes.mergeSort ctLE

/-- Mapping-branch decoration:
`{**m, "_index": len(messages), "_orig_id": m.get("id") or m.get("_node_id")}`.
Nodes produced by `extractNode` are always objects. -/
def decorateNode (i : Nat) (m : JVal) : JVal :=
  match m with
  | .obj fs =>
      .obj (dictSet (dictSet fs "_index" (.num (i : Int))) "_orig_id"
        (pyOr (pyGet m "id") (pyGet m "_node_id")))
  | v => v

/-- Mapping branch of `load_convo`: extract, sort by timestamp, decorate. -/
def loadMappingMessages (mapping : List (String × JVal)) :
    Except String (List JVal) :=
  match extractNodes mapping with
  | .error e => .error e
  | .ok nodes => .ok ((sortNodes nodes).enum.map fun p => decorateNode p.1 p.2)

/-- Message-extraction part of `load_convo`: flat `messages` list first,
else `mapping` dict, else `ValueError`. -/
def loadMessages (raw : JVal) : Except String (List JVal) :=
  match raw.get? "messages" with
  | some (.arr ms) => loadFlatMessages ms
  | _ =>
    match raw.get? "mapping" with
    | some (.obj mp) => loadMappingMessages mp
    | _ => .error "ValueError: expected messages (list) or mapping (dict)"

/-! ## `slice_by_ranges.py` — boundary resolution -/

/-- `index_for_token`: an `id:<msgid>` token resolves by linear search on
`str(m.get("_orig_id") or "")`, anything else must parse as an integer.
(`m["_index"]` is read as an integer; the normalizer always stores one.) -/
def index_for_token (messages : List JVal) (token : String) : Except String Int :=
  if "id:".toList.isPrefixOf token.toList then
    let needle := String.mk (token.toList.drop 3)
    match messages.find? (fun m => pyStr (pyOr (pyGet m "_orig_id") (.str "")) == needle) with
    | some m =>
        match pyGet m "_index" with
        | .num n => .ok n
        | _ => .error "KeyError: _index"
    | none => .error ("Message ID not found: " ++ needle)
  else
    match pyInt? token with
    | some n => .ok n
    | none => .error ("Bad boundary token: " ++ token)

/-- Tokenization part of `parse_range`: split `start:end[:name]` on `:`,
re-assembling `id:`-prefixed tokens, remainder joined back as the name
(default `"slice"`). -/
def splitRangeArg (rng : String) : Except String (String × String × String) :=
  let parts := pySplitColon rng
  if parts.length < 2 then
    .error ("--range must be start:end[:name], got " ++ rng)
  else
    match parts with
    | [] => .error ("--range must be start:end[:name], got " ++ rng)
    | p0 :: rest0 =>
      let startStep : Except String (String × List String) :=
        if p0 = "id" then
          match rest0 with
          | p1 :: r => .ok ("id:" ++ p1, r)
          | [] => .error ("Malformed start token in --range: " ++ rng)
        else .ok (p0, rest0)
      match startStep with
      | .error e => .error e
      | .ok (startTok, rest1) =>
        match rest1 with
        | [] => .error ("Missing end token in --range: " ++ rng)
        | q0 :: rest2 =>
          let endStep : Except String (String × List String) :=
            if q0 = "id" then
              match rest2 with
              | q1 :: r => .ok ("id:" ++ q1, r)
              | [] => .error ("Malformed end token in --range: " ++ rng)
            else .ok (q0, rest2)
          match endStep with
          | .error e => .error e
          | .ok (endTok, rest3) =>
            let nm := if rest3.isEmpty then "slice" else String.intercalate ":" rest3
            .ok (startTok, endTok, nm)

/-- `parse_range`: resolve both tokens, swap when the end precedes the
start, convert the inclusive end to an exclusive bound. -/
def parse_range (messages : List JVal) (rng : String) :
    Except String (Int × Int × String) := do
  let (st, et, nm) ← splitRangeArg rng
  let a ← index_for_token messages st
  let b ← index_for_token messages et
  if b < a then .ok (b, a + 1, nm) else .ok (a, b + 1, nm)

/-- Insertion into a strictly ascending list of distinct integers; folding
it over a list realizes Python's `sorted(set(xs))`. -/
def insertAsc (x : Int) : List Int → List Int
  | [] => [x]
  | y :: ys => if x < y then x :: y :: ys else if x = y then y :: ys else y :: insertAsc x ys

/-- `sorted(set(xs))`: the strictly ascending enumeration of the set. -/
def sortedDedup (xs : List Int) : List Int := xs.foldr insertAsc []

/-- Loop body of `build_ranges_from_split_at`: `i` is the enumeration
index over the cut list, `acc` the ranges built so far; returns the
ranges together with the final `prev` (only updated when a cut is taken). -/
def buildLoop (slice_names : List String) (default_name : String) :
    List Int → Int → Nat → List (Int × Int × String) →
    List (Int × Int × String) × Int
  | [], prev, _i, acc => (acc, prev)
  | cut :: rest, prev, i, acc =>
    if cut > prev then
      let nm := if i < slice_names.length then slice_names.getD i default_name
                else default_name
      buildLoop slice_names default_name rest (cut + 1) (i + 1) (acc ++ [(prev, cut + 1, nm)])
    else buildLoop slice_names default_name rest prev (i + 1) acc

/-- `build_ranges_from_split_at`. -/
def build_ranges_from_split_at (split_tokens : List String) (messages : List JVal)
    (default_name : String) (slice_names : List String) :
    Except String (List (Int × Int × String)) :=
  if split_tokens.isEmpty then
    .ok [(0, (messages.length : Int),
          if slice_names.isEmpty then default_name else slice_names.headD default_name)]
  else do
    let idxs ← split_tokens.mapM (index_for_token messages)
    let cuts := sortedDedup (idxs.filter fun i =>
      decide (0 ≤ i) && decide (i < (messages.length : Int)))
    let (ranges, prev) := buildLoop slice_names default_name cuts 0 0 []
    if prev < (messages.length : Int) then
      let nm := if ranges.length < slice_names.length then
                  slice_names.getD ranges.length default_name
                else default_name
      .ok (ranges ++ [(prev, (messages.length : Int), nm)])
    else .ok ranges

/-! ## `slice_by_ranges.py` — `main`: cleaning, disambiguation, assembly -/

/-- Clamping/dropping pass of `main`: clamp both bounds into
`[0, len(msgs)]`, drop collapsed ranges, default empty names. -/
def cleanSpecs (len : Int) (default_name : String)
    (specs : List (Int × Int × String)) : List (Int × Int × String) :=
  specs.filterMap fun s =>
    let a := max 0 (min s.1 len)
    let b := max 0 (min s.2.1 len)
    if b ≤ a then none
    else some (a, b, if s.2.2 = "" then default_name else s.2.2)

/-- Name-collision disambiguation of `main` (`name`, `name-2`, `name-3`,
… in range order), on `(start, end, name)` triples. -/
def suffixNames : List (String × Nat) → List (Int × Int × String) →
    List (Int × Int × String)
  | _, [] => []
  | counts, (a, b, name) :: rest =>
    let c := ((counts.lookup name).getD 0) + 1
    let nm := if c = 1 then name else name ++ "-" ++ toString c
    (a, b, nm) :: suffixNames (countSet counts name c) rest

/-- The slice payload fields that boundary resolution determines:
slice name, 1-based sequence number, recorded `range_indices`
(`[a, b-1]`), and the copied message subsequence.  The remaining payload
fields (conversation id/title/date/time, tags, human title) are constant
metadata never constrained by the claims under verification. -/
structure SliceDoc where
  sliceName : String
  sequence : Nat
  range_indices : Int × Int
  msgs : List JVal
deriving BEq, Repr

/-- Output loop of `main`: one `SliceDoc` per enumerated range. -/
def assembleSlices (msgs : List JVal) (enumerated : List (Int × Int × String)) :
    List SliceDoc :=
  enumerated.enum.map fun p =>
    { sliceName := p.2.2.2
      sequence := p.1 + 1
      range_indices := (p.2.1, p.2.2.1 - 1)
      msgs := pySliceInt msgs p.2.1 p.2.2.1 }

/-- Range-selection logic of `main`: explicit `--range` arguments win;
else `--split-at` tokens; else the whole conversation; then clean,
disambiguate. -/
def mainSliceSpecs (msgs : List JVal) (rangeArgs : List String)
    (splitTokens : List String) (sliceNamesArg : List String)
    (cfgDefault : String) : Except String (List (Int × Int × String)) := do
  let specs ← rangeArgs.mapM (parse_range msgs)
  let specs2 ← if specs.isEmpty && !splitTokens.isEmpty then
      build_ranges_from_split_at splitTokens msgs cfgDefault sliceNamesArg
    else pure specs
  let specs3 := if specs2.isEmpty then [(0, (msgs.length : Int), "whole")] else specs2
  pure (suffixNames [] (cleanSpecs (msgs.length : Int) cfgDefault specs3))

/-- End-to-end slice production of `slice_by_ranges.py` `main` on an
already-loaded message list. -/
def runSliceByRanges (msgs : List JVal) (rangeArgs : List String)
    (splitTokens : List String) (sliceNamesArg : List String)
    (cfgDefault : String) : Except String (List SliceDoc) :=
  (mainSliceSpecs msgs rangeArgs splitTokens sliceNamesArg cfgDefault).map
    (assembleSlices msgs)

/-! ## `split_convo.py` — marker-based splitting

`SPLIT_RE.search` (the fixed case-insensitive `[[SPLIT(: name)?]]`
pattern) is an external regex-engine call; it is abstracted as a
parameter `search : String → Option (Option String)` returning, for a
matching content string, the optional capture group 1 (`mo.group(1)`). -/

/-- `m.get("content") or ""` as a search subject; a truthy non-string
content raises `TypeError` inside `re.search` in Python. -/
def contentForSplit (m : JVal) : Except String String :=
  match pyOr (pyGet m "content") (.str "") with
  | .str s => .ok s
  | _ => .error "TypeError: expected string content"

/-- `find_splits` loop from a given running index:
collect `(idx, (mo.group(1) or "").strip())` for each matching message. -/
def findSplitsGo (search : String → Option (Option String)) :
    Nat → List JVal → Except String (List (Nat × String))
  | _idx, [] => .ok []
  | idx, m :: rest =>
    match contentForSplit m with
    | .error e => .error e
    | .ok content =>
      match findSplitsGo search (idx + 1) rest with
      | .error e => .error e
      | .ok tail =>
        match search content with
        | some g => .ok ((idx, pyStrip (g.getD "")) :: tail)
        | none => .ok tail

/-- `find_splits(messages)`. -/
def find_splits (search : String → Option (Option String)) (messages : List JVal) :
    Except String (List (Nat × String)) :=
  findSplitsGo search 0 messages

/-- Name-collision disambiguation of `slice_messages`, on
`(name, start, end)` triples. -/
def suffixNamed : List (String × Nat) → List (String × Nat × Nat) →
    List (String × Nat × Nat)
  | _, [] => []
  | counts, (base, a, b) :: rest =>
    let c := ((counts.lookup base).getD 0) + 1
    let nm := if c = 1 then base else base ++ "-" ++ toString c
    (nm, a, b) :: suffixNamed (countSet counts base c) rest

/-- Range-building loop of `slice_messages`: a segment is emitted before a
marker only when non-empty; `prev` always jumps past the marker message. -/
def sliceLoop (default_name : String) :
    List (Nat × String) → Nat → List (String × Nat × Nat) →
    List (String × Nat × Nat) × Nat
  | [], prev, acc => (acc, prev)
  | (sidx, name) :: rest, prev, acc =>
    sliceLoop default_name rest (sidx + 1)
      (if sidx > prev then
        acc ++ [((if name = "" then default_name else name), prev, sidx)]
       else acc)

/-- `slice_messages(messages, splits, default_name)`. -/
def slice_messages (messages : List JVal) (splits : List (Nat × String))
    (default_name : String) : List (String × Nat × Nat) :=
  if splits.isEmpty then [("whole", 0, messages.length)]
  else
    let lp := sliceLoop default_name splits 0 []
    let ranges := if lp.2 < messages.length then
        lp.1 ++ [(default_name, lp.2, messages.length)]
      else lp.1
    suffixNamed [] ranges

/-- Concatenation of the message subsequences of all slices produced by
`slice_messages`, in range order (`convo["messages"][a:b]` per slice). -/
def concatSlices (messages : List JVal) (splits : List (Nat × String))
    (default_name : String) : List JVal :=
  ((slice_messages messages splits default_name).map
    (fun r => pySlice messages r.2.1 r.2.2)).flatten

/-- Re-insertion of dropped marker messages at their original canonical
indices, in ascending index order. -/
def reinsertAll (pairs : List (Nat × JVal)) (xs : List JVal) : List JVal :=
  pairs.foldl (fun acc p => acc.insertIdx p.1 p.2) xs

/-! ## `extract_conversation.py` — snippet filtering

`re.compile(patt, re.IGNORECASE)` is an external regex-engine call; it is
abstracted as a parameter `rxCompile : String → Option (String → Bool)`
(`none` models `re.error`, `some r` a compiled pattern whose `search` is
`r`). -/

/-- `iter_messages` of the snippet filter: the `messages` list, else the
`message` objects of the `mapping` values. -/
def iterMessages (conv : JVal) : List JVal :=
  match conv.get? "messages" with
  | some (.arr ms) => ms
  | _ =>
    match conv.get? "mapping" with
    | some (.obj mp) =>
        mp.filterMap (fun p =>
          match p.2 with
          | .obj nfs =>
              match nfs.lookup "message" with
              | some (.obj mfs) => some (.obj mfs)
              | _ => none
          | _ => none)
    | _ => []

/-- Per-message search scope (`chunks`) of the snippet filter: dict
content contributes stringified `parts` plus all string values and
strings inside list values; list content its strings; string content
itself; then a string `text` field; with the serialized message as the
last resort. -/
def chunksOfMsg (m : JVal) : List String :=
  let base : List String :=
    match m.get? "content" with
    | some (.obj cfs) =>
        (match cfs.lookup "parts" with
         | some (.arr parts) => parts.map pyStr
         | _ => [])
        ++ (cfs.map Prod.snd).flatMap (fun v =>
             match v with
             | .str s => [s]
             | .arr items =>
                 items.filterMap (fun it =>
                   match it with | .str s => some s | _ => none)
             | _ => [])
    | some (.arr xs) =>
        xs.filterMap (fun x => match x with | .str s => some s | _ => none)
    | some (.str s) => [s]
    | _ => []
  let base2 := base ++ (match m.get? "text" with | some (.str s) => [s] | _ => [])
  if base2.isEmpty then [jdumps m] else base2

/-- Snippet predicate of `conv_matches_filters`: compile once, then search
every chunk of every message; on compilation failure fall back to
case-insensitive substring containment. -/
def snippetFound (rxCompile : String → Option (String → Bool)) (patt : String)
    (conv : JVal) : Bool :=
  let rx := rxCompile patt
  (iterMessages conv).any fun m =>
    (chunksOfMsg m).any fun ch =>
      match rx with
      | some r => r ch
      | none => pyIn (pyLower patt) (pyLower ch)

/-- Well-formedness of a conversation for the snippet filter: every
iterated message is an object and every mapping node is an object (Python
raises `AttributeError` on such inputs before any matching happens). -/
def snippetConvOk (conv : JVal) : Bool :=
  (match conv.get? "messages" with
   | some (.arr ms) => ms.all (fun m => match m with | .obj _ => true | _ => false)
   | _ =>
     match conv.get? "mapping" with
     | some (.obj mp) =>
         mp.all (fun p => match p.2 with | .obj _ => true | _ => false)
     | _ => true)

/-! ## Spec-side reference definition (for claim C3) and concrete fixtures -/

/-- Reference construction following the spec wording for split-at ranges
(§4.4): each cut point ends its own segment inclusive of itself, the next
segment begins at `cut+1`, and a final segment runs to the end when the
last cut does not reach it.  Used only to compare against
`build_ranges_from_split_at`. -/
def specCutRanges (len : Int) : Int → List Int → List (Int × Int)
  | prev, [] => if prev < len then [(prev, len)] else []
  | prev, c :: rest => (prev, c + 1) :: specCutRanges len (c + 1) rest

/-- Typing condition scoping the timestamp-sort theorem: a node's message
`create_time` must be numeric or falsy (so that `ctKey` agrees with the
raw Python sort key).  Python compares truthy non-numeric values
directly, which this model does not reproduce. -/
def ctTypedNode (node : JVal) : Bool :=
  match node with
  | .obj nfs =>
    (match (nfs.lookup "message").getD .null with
     | .obj mfs =>
       (match pyOr ((mfs.lookup "create_time").getD .null) (.num 0) with
        | .num _ => true
        | _ => false)
     | _ => true)
  | _ => true

def ctTyped (mapping : List (String × JVal)) : Bool :=
  mapping.all fun p => ctTypedNode p.2

/-- Removal of the positional `_index` decoration from a message. -/
def stripIdx (m : JVal) : JVal :=
  match m with
  | .obj fs => .obj (fs.filter fun p => !(p.1 == "_index"))
  | v => v

/-- The position-independent part of the mapping-branch decoration. -/
def decorNoIdx (m : JVal) : JVal :=
  match m with
  | .obj fs => .obj (dictSet fs "_orig_id" (pyOr (pyGet m "id") (pyGet m "_node_id")))
  | v => v

/-- Absence of the decoration keys in an object's fields. -/
def noDecorKeys (m : JVal) : Prop :=
  match m with
  | .obj fs => ∀ p ∈ fs, p.1 ≠ "_index" ∧ p.1 ≠ "_orig_id"
  | _ => True

/-- The per-cut prefix of `specCutRanges` (no final segment). -/
def specCutPairs : Int → List Int → List (Int × Int)
  | _prev, [] => []
  | prev, c :: rest => (prev, c + 1) :: specCutPairs (c + 1) rest

/-- Consecutive non-empty ranges running from `p` to `q`. -/
def RangeChain : Int → List (Int × Int × String) → Int → Prop
  | p, [], q => p = q
  | p, r :: rest, q => r.1 = p ∧ p < r.2.1 ∧ RangeChain r.2.1 rest q

/-- Split positions produced by `find_splits` seen from a running segment
start: strictly ascending, in range, first at least `prev`. -/
def SplitsOk : List (Nat × String) → Nat → Nat → Prop
  | [], _, _ => True
  | (s, _) :: rest, prev, len => prev ≤ s ∧ s < len ∧ SplitsOk rest (s + 1) len

/-- Recursive form of the range list built by `slice_messages` (before
name disambiguation), including the final segment. -/
def sliceRangesSpec (d : String) (len : Nat) : List (Nat × String) → Nat → List (String × Nat × Nat)
  | [], prev => if prev < len then [(d, prev, len)] else []
  | (sidx, name) :: rest, prev =>
    (if sidx > prev then [((if name = "" then d else name), prev, sidx)] else [])
      ++ sliceRangesSpec d len rest (sidx + 1)

/-- Concatenated message subsequences of the recursive range list. -/
def concatFrom (msgs : List JVal) (d : String) (splits : List (Nat × String)) (prev : Nat) : List JVal :=
  ((sliceRangesSpec d msgs.length splits prev).map (fun r => pySlice msgs r.2.1 r.2.2)).flatten

/-- A minimal flat message carrying only a content string. -/
def mkMsg (c : String) : JVal := .obj [("content", .str c)]

/-- Ten-message conversation with a named split marker at index 4. -/
def msgs10 : List JVal :=
  [mkMsg "m0", mkMsg "m1", mkMsg "m2", mkMsg "m3", mkMsg "[[SPLIT: Act2]]",
   mkMsg "m5", mkMsg "m6", mkMsg "m7", mkMsg "m8", mkMsg "m9"]

/-- Two plain messages. -/
def msgs2 : List JVal := [mkMsg "a0", mkMsg "a1"]

/-- A `SPLIT_RE.search` oracle matching exactly the marker of `msgs10`,
with capture group `"Act2"`. -/
def searchAct2 : String → Option (Option String) :=
  fun s => if s = "[[SPLIT: Act2]]" then some (some "Act2") else none

/-- A `SPLIT_RE.search` oracle that never matches. -/
def searchNoMatch : String → Option (Option String) := fun _ => none

/-- A `re.compile` oracle that always fails (invalid pattern). -/
def rxFail : String → Option (String → Bool) := fun _ => none

/-- Five-message flat conversation record (for Example 1 / claim C1). -/
def raw5 : JVal :=
  .obj [("messages", .arr [mkMsg "c0", mkMsg "c1", mkMsg "c2", mkMsg "c3", mkMsg "c4"])]

/-- The canonical messages of `raw5` after flat normalization. -/
def msgs5 : List JVal :=
  [.obj [("content", .str "c0"), ("_index", .num 0), ("_orig_id", .null)],
   .obj [("content", .str "c1"), ("_index", .num 1), ("_orig_id", .null)],
   .obj [("content", .str "c2"), ("_index", .num 2), ("_orig_id", .null)],
   .obj [("content", .str "c3"), ("_index", .num 3), ("_orig_id", .null)],
   .obj [("content", .str "c4"), ("_index", .num 4), ("_orig_id", .null)]]

/-- A flat message whose `id` field is present but empty (falsy). -/
def emptyIdMsgs : List JVal := [.obj [("id", .str ""), ("message_id", .str "m1")]]

/-- The `_orig_id` value computed for a flat message:
`m.get("id") or m.get("message_id") or m.get("uuid")`. -/
def flatOrigId (m : JVal) : JVal :=
  pyOr (pyOr (pyGet m "id") (pyGet m "message_id")) (pyGet m "uuid")

/-- A one-message conversation for the snippet-filter witness. -/
def snippetConv : JVal :=
  .obj [("messages", .arr [.obj [("content", .str "xxAB(yy")]])]

/-- Example 2 mapping: three nodes with timestamps 30, 10, 20. -/
def mapping3 : List (String × JVal) :=
  [("n1", .obj [("message", .obj [("content", .str "a"), ("create_time", .num 30)])]),
   ("n2", .obj [("message", .obj [("content", .str "b"), ("create_time", .num 10)])]),
   ("n3", .obj [("message", .obj [("content", .str "c"), ("create_time", .num 20)])])]

/-- The node record extracted from one `mapping3` node. -/
def node3 (c : String) (ct : Int) (nid : String) : JVal :=
  .obj [("role", .str "user"), ("content", .str c), ("create_time", .num ct),
        ("id", .null), ("_node_id", .str nid)]

def nodes3 : List JVal := [node3 "a" 30 "n1", node3 "b" 10 "n2", node3 "c" 20 "n3"]

/-- A decorated, normalized message of `mapping3`. -/
def dmsg3 (c : String) (ct : Int) (nid : String) (i : Int) : JVal :=
  .obj [("role", .str "user"), ("content", .str c), ("create_time", .num ct),
        ("id", .null), ("_node_id", .str nid), ("_index", .num i), ("_orig_id", .str nid)]

def msgs3 : List JVal := [dmsg3 "b" 10 "n2" 0, dmsg3 "c" 20 "n3" 1, dmsg3 "a" 30 "n1" 2]

/-! ## Theorems -/

/-- C1 (counterexample): on the five-message flat conversation of Example
1, the range token `1:3:chat` yields a slice whose recorded
`range_indices` is `[1, 3]`, not the claimed `[1, 2]`. -/
theorem C1_counterexample :
    (runSliceByRanges msgs5 ["1:3:chat"] [] [] "slice").map (List.map SliceDoc.range_indices)
      = .ok [((1 : Int), (3 : Int))]
    ∧ [((1 : Int), (3 : Int))] ≠ [((1 : Int), (2 : Int))] :=
  ⟨rfl, by decide⟩

/-- C1 (amended): for the flat five-message conversation, resolving the
explicit range token `1:3:chat` and assembling its slice produces a slice
named `chat` whose messages are exactly those at canonical indices 1, 2
and 3 (the end index is inclusive), with `range_indices = [1, 3]`. -/
theorem C1_amended :
    loadMessages raw5 = .ok msgs5
    ∧ runSliceByRanges msgs5 ["1:3:chat"] [] [] "slice"
      = .ok [{ sliceName := "chat", sequence := 1, range_indices := (1, 3),
               msgs := [.obj [("content", .str "c1"), ("_index", .num 1), ("_orig_id", .null)],
                        .obj [("content", .str "c2"), ("_index", .num 2), ("_orig_id", .null)],
                        .obj [("content", .str "c3"), ("_index", .num 3), ("_orig_id", .null)]] }] :=
  ⟨rfl, rfl⟩

/-- C2 (code behaviour at the failing input): on a 10-message conversation
with a single marker at index 4 named `Act2`, the splitter names the
segment *before* the marker `Act2` and the final segment with the default
name — the opposite of the documented assignment (`[[SPLIT: name]]` is
documented to name the *next* slice). -/
theorem C2_code_behaviour :
    find_splits searchAct2 msgs10 = .ok [(4, "Act2")]
    ∧ slice_messages msgs10 [(4, "Act2")] "slice" = [("Act2", 0, 4), ("slice", 5, 10)]
    ∧ slice_messages msgs10 [(4, "Act2")] "slice" ≠ [("slice", 0, 4), ("Act2", 5, 10)] :=
  ⟨rfl, rfl, by decide⟩

/-- C3 (counterexample): a split-at cut resolved to index 0 on a
two-message conversation produces the single range `[0, 2)` — the cut does
not end its own one-message segment, and one segment is produced instead
of the claimed two (`[0,1)`, `[1,2)`). -/
theorem C3_counterexample :
    build_ranges_from_split_at ["0"] msgs2 "slice" [] = .ok [(0, 2, "slice")]
    ∧ [((0 : Int), (2 : Int), "slice")].map (fun r => (r.1, r.2.1)) ≠ specCutRanges 2 0 [0]
    ∧ [((0 : Int), (2 : Int), "slice")].length ≠ [(0 : Int)].length + 1 :=
  ⟨rfl, by decide, by decide⟩

/-- C7 (counterexample): with no markers found, the produced single range
is named by the hardcoded string `"whole"`, not by the configured default
slice name (`"slice"` here). -/
theorem C7_counterexample :
    find_splits searchNoMatch msgs2 = .ok []
    ∧ slice_messages msgs2 [] "slice" = [("whole", 0, 2)]
    ∧ "whole" ≠ "slice" :=
  ⟨rfl, rfl, by decide⟩

/-- C8: whenever the two tokens of an explicit range triple resolve to
indices `a` and `b` with `b < a`, `parse_range` yields the swapped,
inclusive-converted half-open range `(b, a+1)` together with the parsed
name — it neither returns `(a, b)` nor fails. -/
theorem C8_swapped_inclusive (messages : List JVal) (rng st et nm : String) (a b : Int)
    (hsplit : splitRangeArg rng = .ok (st, et, nm))
    (ha : index_for_token messages st = .ok a)
    (hb : index_for_token messages et = .ok b)
    (hba : b < a) :
    parse_range messages rng = .ok (b, a + 1, nm) := by
  simp only [parse_range, hsplit, bind, Except.bind, ha, hb]
  simp [hba]

/-- Witness for C8 at the concrete range argument `3:1:x`. -/
theorem C8_swapped_inclusive_witness :
    splitRangeArg "3:1:x" = .ok ("3", "1", "x")
    ∧ index_for_token [] "3" = .ok 3
    ∧ index_for_token [] "1" = .ok 1
    ∧ (1 : Int) < 3
    ∧ parse_range [] "3:1:x" = .ok (1, 4, "x") :=
  ⟨rfl, rfl, rfl, by decide,
   C8_swapped_inclusive [] "3:1:x" "3" "1" "x" 3 1 rfl rfl rfl (by decide)⟩

/-- C10 (counterexample): a flat message whose `id` field is present but
empty (`""`) gets `_orig_id` from the *next truthy* field (`message_id`),
not from the first *present* field as claimed. -/
theorem C10_counterexample :
    loadFlatMessages emptyIdMsgs
      = .ok [.obj [("id", .str ""), ("message_id", .str "m1"),
                   ("_index", .num 0), ("_orig_id", .str "m1")]]
    ∧ ¬ (JVal.str "m1" = JVal.str "") :=
  ⟨rfl, by simp⟩

/-- Updating an absent key appends it, leaving existing pairs unchanged. -/
theorem dictSet_append (fs : List (String × JVal)) (k : String) (v : JVal)
    (h : ∀ p ∈ fs, p.1 ≠ k) : dictSet fs k v = fs ++ [(k, v)] := by
  unfold dictSet
  rw [if_neg]
  simp only [List.any_eq_true, beq_iff_eq, not_exists, not_and]
  intro p hp
  exact h p hp

/-- Flat decoration over an enumerated tail, for any starting index. -/
theorem loadFlat_enumFrom (ms : List JVal) : ∀ n : Nat,
    (∀ m ∈ ms, ∃ fs, m = JVal.obj fs ∧ ∀ p ∈ fs, p.1 ≠ "_index" ∧ p.1 ≠ "_orig_id") →
    (List.enumFrom n ms).mapM (fun p => decorateFlat p.1 p.2)
      = .ok (((List.enumFrom n ms)).map fun p =>
          match p.2 with
          | .obj fs => JVal.obj (fs ++
              [("_index", .num (p.1 : Int)), ("_orig_id", flatOrigId p.2)])
          | v => v) := by
  induction ms with
  | nil => intro n h; rfl
  | cons m rest ih =>
    intro n h
    obtain ⟨fs, hm, hkeys⟩ := h m (by simp)
    subst hm
    have h1 : dictSet fs "_index" (.num (n : Int)) = fs ++ [("_index", .num (n : Int))] :=
      dictSet_append fs "_index" _ (fun p hp => (hkeys p hp).1)
    have h2 : dictSet (fs ++ [("_index", .num (n : Int))]) "_orig_id" (flatOrigId (.obj fs))
        = fs ++ [("_index", .num (n : Int))] ++ [("_orig_id", flatOrigId (.obj fs))] := by
      apply dictSet_append
      intro p hp
      rcases List.mem_append.mp hp with h3 | h3
      · exact (hkeys p h3).2
      · simp at h3; subst h3; simp
    simp only [List.enumFrom_cons, List.mapM_cons, List.map_cons]
    rw [ih (n + 1) (fun m hm => h m (by simp [hm]))]
    simp only [decorateFlat, flatOrigId] at h1 h2 ⊢
    rw [h1, h2]
    simp [bind, Except.bind, pure, Except.pure, List.append_assoc]

/-- C10 (amended): flat normalization of object messages free of the
decoration keys keeps every original key-value pair in place and appends
exactly `_index` (the contiguous 0-based position) and `_orig_id` (the
Python or-chain over `id`, `message_id`, `uuid`). -/
theorem C10_amended (ms : List JVal)
    (h : ∀ m ∈ ms, ∃ fs, m = JVal.obj fs ∧ ∀ p ∈ fs, p.1 ≠ "_index" ∧ p.1 ≠ "_orig_id") :
    loadFlatMessages ms = .ok (ms.enum.map fun p =>
      match p.2 with
      | .obj fs => JVal.obj (fs ++
          [("_index", .num (p.1 : Int)), ("_orig_id", flatOrigId p.2)])
      | v => v) := by
  unfold loadFlatMessages List.enum
  exact loadFlat_enumFrom ms 0 h

/-- Witness for C10 (amended) on the message with an empty `id`. -/
theorem C10_amended_witness :
    (∀ m ∈ emptyIdMsgs, ∃ fs, m = JVal.obj fs ∧ ∀ p ∈ fs, p.1 ≠ "_index" ∧ p.1 ≠ "_orig_id")
    ∧ loadFlatMessages emptyIdMsgs = .ok (emptyIdMsgs.enum.map fun p =>
        match p.2 with
        | .obj fs => JVal.obj (fs ++
            [("_index", .num (p.1 : Int)), ("_orig_id", flatOrigId p.2)])
        | v => v) := by
  have h : ∀ m ∈ emptyIdMsgs, ∃ fs, m = JVal.obj fs ∧
      ∀ p ∈ fs, p.1 ≠ "_index" ∧ p.1 ≠ "_orig_id" := by
    intro m hm
    simp only [emptyIdMsgs, List.mem_singleton] at hm
    subst hm
    refine ⟨_, rfl, ?_⟩
    simp
  exact ⟨h, C10_amended emptyIdMsgs h⟩

/-- When no message content matches, `find_splits` finds nothing, from any
starting index. -/
theorem findSplitsGo_none (search : String → Option (Option String)) :
    ∀ (msgs : List JVal) (n : Nat),
    (∀ m ∈ msgs, ∃ c, contentForSplit m = .ok c ∧ search c = none) →
    findSplitsGo search n msgs = .ok []
  | [], _, _ => rfl
  | m :: rest, n, h => by
    obtain ⟨c, hc, hs⟩ := h m (by simp)
    have ihr := findSplitsGo_none search rest (n + 1) (fun m hm => h m (by simp [hm]))
    simp [findSplitsGo, hc, hs, ihr]

/-- C7 (amended): when no inline split marker is found in any message, the
splitter produces exactly one range spanning the whole sequence, named by
the hardcoded string `"whole"` — the configured default name `d` is not
used. -/
theorem C7_amended (search : String → Option (Option String)) (msgs : List JVal) (d : String)
    (h : ∀ m ∈ msgs, ∃ c, contentForSplit m = .ok c ∧ search c = none) :
    find_splits search msgs = .ok []
    ∧ slice_messages msgs [] d = [("whole", 0, msgs.length)] :=
  ⟨findSplitsGo_none search msgs 0 h, rfl⟩

/-- Witness for C7 (amended) on the two plain messages. -/
theorem C7_amended_witness :
    (∀ m ∈ msgs2, ∃ c, contentForSplit m = .ok c ∧ searchNoMatch c = none)
    ∧ find_splits searchNoMatch msgs2 = .ok []
    ∧ slice_messages msgs2 [] "slice" = [("whole", 0, msgs2.length)] := by
  have h : ∀ m ∈ msgs2, ∃ c, contentForSplit m = .ok c ∧ searchNoMatch c = none := by
    intro m hm
    simp only [msgs2, mkMsg, List.mem_cons, List.mem_singleton, List.not_mem_nil] at hm
    rcases hm with hm | hm | hm
    · subst hm; exact ⟨"a0", rfl, rfl⟩
    · subst hm; exact ⟨"a1", rfl, rfl⟩
    · exact absurd hm not_false
  exact ⟨h, (C7_amended searchNoMatch msgs2 "slice" h).1,
         (C7_amended searchNoMatch msgs2 "slice" h).2⟩

/-- C9: when pattern compilation fails, the snippet predicate degrades to
case-insensitive literal substring containment over the per-message
search scope, matching when any chunk of any message contains the
pattern; the embedded predicate is total (nothing is raised). -/
theorem C9_regex_fallback (rxCompile : String → Option (String → Bool))
    (patt : String) (conv : JVal)
    (hfail : rxCompile patt = none)
    (_hwf : snippetConvOk conv = true) :
    (snippetFound rxCompile patt conv = true ↔
      ∃ m ∈ iterMessages conv, ∃ ch ∈ chunksOfMsg m,
        pyIn (pyLower patt) (pyLower ch) = true) := by
  unfold snippetFound
  rw [hfail]
  simp [List.any_eq_true]

/-- Witness for C9 on a one-message conversation and a failing pattern. -/
theorem C9_regex_fallback_witness :
    rxFail "AB(" = none
    ∧ snippetConvOk snippetConv = true
    ∧ (snippetFound rxFail "AB(" snippetConv = true ↔
        ∃ m ∈ iterMessages snippetConv, ∃ ch ∈ chunksOfMsg m,
          pyIn (pyLower "AB(") (pyLower ch) = true)
    ∧ snippetFound rxFail "AB(" snippetConv = true :=
  ⟨rfl, rfl, C9_regex_fallback rxFail "AB(" snippetConv rfl rfl, rfl⟩

theorem head_insertAsc (x : Int) (ys : List Int) (b : Int)
    (hb : (insertAsc x ys).head? = some b) : b = x ∨ ys.head? = some b := by
  cases ys with
  | nil => simp [insertAsc] at hb; exact Or.inl hb.symm
  | cons z t =>
    by_cases h1 : x < z
    · simp [insertAsc, h1] at hb; exact Or.inl hb.symm
    · by_cases h2 : x = z
      · simp [insertAsc, h1, h2] at hb; exact Or.inr (by simp [hb])
      · simp [insertAsc, h1, h2] at hb; exact Or.inr (by simp [hb])

theorem insertAsc_chain (x : Int) : ∀ (l : List Int), l.Chain' (· < ·) →
    (insertAsc x l).Chain' (· < ·)
  | [], _ => by simp [insertAsc]
  | y :: ys, h => by
    by_cases h1 : x < y
    · simp only [insertAsc, if_pos h1]
      exact List.chain'_cons.mpr ⟨h1, h⟩
    · by_cases h2 : x = y
      · simp only [insertAsc, if_neg h1, if_pos h2]
        exact h
      · have hyx : y < x := by omega
        simp only [insertAsc, if_neg h1, if_neg h2]
        rw [List.chain'_cons']
        refine ⟨?_, insertAsc_chain x ys (List.Chain'.tail h)⟩
        intro b hb
        rcases head_insertAsc x ys b hb with hb2 | hb2
        · omega
        · exact (List.chain'_cons'.mp h).1 b hb2

theorem mem_insertAsc (x : Int) : ∀ (l : List Int) (y : Int),
    y ∈ insertAsc x l ↔ y = x ∨ y ∈ l
  | [], y => by simp [insertAsc]
  | z :: t, y => by
    by_cases h1 : x < z
    · simp only [insertAsc, if_pos h1, List.mem_cons]
    · by_cases h2 : x = z
      · subst h2
        have he : insertAsc x (x :: t) = x :: t := by
          unfold insertAsc
          rw [if_neg h1, if_pos rfl]
        rw [he]
        simp only [List.mem_cons]
        tauto
      · simp only [insertAsc, if_neg h1, if_neg h2, List.mem_cons, mem_insertAsc x t y]
        tauto

theorem sortedDedup_chain (l : List Int) : (sortedDedup l).Chain' (· < ·) := by
  unfold sortedDedup
  induction l with
  | nil => simp
  | cons x t ih => exact insertAsc_chain x _ ih

theorem mem_sortedDedup (l : List Int) (y : Int) : y ∈ sortedDedup l ↔ y ∈ l := by
  unfold sortedDedup
  induction l with
  | nil => simp
  | cons x t ih =>
    simp only [List.foldr_cons, mem_insertAsc, ih, List.mem_cons]

theorem rangeChain_le : ∀ (rs : List (Int × Int × String)) (p q : Int),
    RangeChain p rs q → p ≤ q
  | [], _, _, h => le_of_eq h
  | _ :: rest, _, q, h => le_trans (le_of_lt h.2.1) (rangeChain_le rest _ q h.2.2)

theorem rangeChain_start_ge : ∀ (rs : List (Int × Int × String)) (a b : Int),
    RangeChain a rs b → ∀ s ∈ rs, a ≤ s.1
  | [], _, _, _, s, hs => by simp at hs
  | r :: rest, a, b, h, s, hs => by
    rcases List.mem_cons.mp hs with h2 | h2
    · subst h2; exact le_of_eq h.1.symm
    · have h3 := rangeChain_start_ge rest r.2.1 b h.2.2 s h2
      have h4 : a < r.2.1 := h.2.1
      omega

theorem rangeChain_append_single : ∀ (rs : List (Int × Int × String)) (p q len : Int)
    (nm : String), RangeChain p rs q → q < len →
    RangeChain p (rs ++ [(q, len, nm)]) len
  | [], _, q, len, nm, h, hlt => by
    subst h
    exact ⟨rfl, hlt, rfl⟩
  | r :: rest, _, q, len, nm, h, hlt =>
    ⟨h.1, h.2.1, rangeChain_append_single rest _ q len nm h.2.2 hlt⟩

theorem rangeChain_cover : ∀ (rs : List (Int × Int × String)) (p q : Int),
    RangeChain p rs q →
    (∀ i : Int, (∃ r ∈ rs, r.1 ≤ i ∧ i < r.2.1) ↔ (p ≤ i ∧ i < q))
    ∧ rs.Pairwise (fun r s => r.2.1 ≤ s.1)
  | [], p, q, h => by
    subst h
    refine ⟨fun i => ?_, List.Pairwise.nil⟩
    simp only [List.not_mem_nil, false_and, exists_false, exists_prop]
    constructor
    · intro hfalse
      exact absurd hfalse (by simp)
    · omega
  | r :: rest, p, q, h => by
    obtain ⟨hstart, hlt, hchain⟩ := h
    obtain ⟨ihiff, ihpw⟩ := rangeChain_cover rest r.2.1 q hchain
    have hq : r.2.1 ≤ q := rangeChain_le rest _ q hchain
    constructor
    · intro i
      constructor
      · rintro ⟨s, hs, h1, h2⟩
        rcases List.mem_cons.mp hs with h3 | h3
        · subst h3
          exact ⟨by omega, by omega⟩
        · have h4 := (ihiff i).mp ⟨s, h3, h1, h2⟩
          exact ⟨by omega, h4.2⟩
      · rintro ⟨h1, h2⟩
        by_cases h3 : i < r.2.1
        · exact ⟨r, List.mem_cons_self r rest, by omega, h3⟩
        · obtain ⟨s, hs, hsa, hsb⟩ := (ihiff i).mpr ⟨by omega, h2⟩
          exact ⟨s, List.mem_cons_of_mem r hs, hsa, hsb⟩
    · exact List.Pairwise.cons (rangeChain_start_ge rest r.2.1 q hchain) ihpw

theorem buildLoop_spec (names : List String) (d : String) (len : Int) :
    ∀ (cuts : List Int) (prev : Int) (i : Nat) (acc : List (Int × Int × String)),
    cuts.Chain' (· < ·) → (∀ c ∈ cuts, c < len) → prev ≤ len →
    ∃ rs q, buildLoop names d cuts prev i acc = (acc ++ rs, q)
      ∧ RangeChain prev rs q ∧ prev ≤ q ∧ q ≤ len
  | [], prev, _i, acc, _, _, hp => ⟨[], prev, by simp [buildLoop], rfl, le_refl _, hp⟩
  | cut :: rest, prev, i, acc, hchain, hb, hp => by
    by_cases hgt : cut > prev
    · have hcut : cut < len := hb cut (by simp)
      obtain ⟨rs, q, heq, hrc, hq1, hq2⟩ :=
        buildLoop_spec names d len rest (cut + 1) (i + 1)
          (acc ++ [(prev, cut + 1, (if i < names.length then names.getD i d else d))])
          (List.Chain'.tail hchain) (fun c hc => hb c (by simp [hc])) (by omega)
      refine ⟨(prev, cut + 1, (if i < names.length then names.getD i d else d)) :: rs,
              q, ?_, ⟨rfl, show prev < cut + 1 by omega, hrc⟩, by omega, hq2⟩
      simp only [buildLoop, if_pos hgt]
      rw [heq, List.append_assoc]
      rfl
    · obtain ⟨rs, q, heq, hrc, hq1, hq2⟩ :=
        buildLoop_spec names d len rest prev (i + 1) acc
          (List.Chain'.tail hchain) (fun c hc => hb c (by simp [hc])) hp
      exact ⟨rs, q, by simp only [buildLoop, if_neg hgt]; exact heq, hrc, hq1, hq2⟩

/-- C4: for every split-at token list over a non-empty conversation whose
tokens all resolve, the produced ranges cover exactly the index interval
`[0, len(messages))`, with no overlaps (consecutive ranges are ordered
and disjoint) and no gaps. -/
theorem C4_cover (tokens : List String) (msgs : List JVal) (d : String)
    (names : List String) (rs : List (Int × Int × String))
    (hne : msgs ≠ [])
    (h : build_ranges_from_split_at tokens msgs d names = .ok rs) :
    (∀ i : Int, (0 ≤ i ∧ i < (msgs.length : Int)) ↔ ∃ r ∈ rs, r.1 ≤ i ∧ i < r.2.1)
    ∧ rs.Pairwise (fun r s => r.2.1 ≤ s.1) := by
  have hlen : 0 < (msgs.length : Int) := by
    cases msgs with
    | nil => exact absurd rfl hne
    | cons m t =>
      have : 0 < (m :: t).length := Nat.succ_pos _
      exact_mod_cast this
  unfold build_ranges_from_split_at at h
  by_cases htok : tokens.isEmpty
  · rw [if_pos htok] at h
    injection h with h2
    subst h2
    have hrc : RangeChain 0 [((0 : Int), (msgs.length : Int),
        if names.isEmpty then d else names.headD d)] (msgs.length : Int) :=
      ⟨rfl, hlen, rfl⟩
    obtain ⟨hiff, hpw⟩ := rangeChain_cover _ 0 (msgs.length : Int) hrc
    exact ⟨fun i => (hiff i).symm, hpw⟩
  · rw [if_neg htok] at h
    cases hmap : tokens.mapM (index_for_token msgs) with
    | error e => rw [hmap] at h; simp [bind, Except.bind] at h
    | ok idxs =>
      rw [hmap] at h
      simp only [bind, Except.bind] at h
      have hchain := sortedDedup_chain (idxs.filter fun i =>
        decide (0 ≤ i) && decide (i < (msgs.length : Int)))
      have hbounds : ∀ c ∈ sortedDedup (idxs.filter fun i =>
          decide (0 ≤ i) && decide (i < (msgs.length : Int))), c < (msgs.length : Int) := by
        intro c hc
        rw [mem_sortedDedup] at hc
        have h5 := List.of_mem_filter hc
        simp only [Bool.and_eq_true, decide_eq_true_eq] at h5
        exact h5.2
      obtain ⟨rs0, q, heq, hrc, hq1, hq2⟩ :=
        buildLoop_spec names d (msgs.length : Int) _ 0 0 [] hchain hbounds (by omega)
      rw [heq] at h
      simp only [List.nil_append] at h
      by_cases hfin : q < (msgs.length : Int)
      · rw [if_pos hfin] at h
        injection h with h2
        subst h2
        have hrc2 := rangeChain_append_single rs0 0 q (msgs.length : Int)
          (if rs0.length < names.length then names.getD rs0.length d else d) hrc hfin
        obtain ⟨hiff, hpw⟩ := rangeChain_cover _ 0 (msgs.length : Int) hrc2
        exact ⟨fun i => (hiff i).symm, hpw⟩
      · rw [if_neg hfin] at h
        injection h with h2
        subst h2
        have hql : q = (msgs.length : Int) := by omega
        rw [hql] at hrc
        obtain ⟨hiff, hpw⟩ := rangeChain_cover _ 0 (msgs.length : Int) hrc
        exact ⟨fun i => (hiff i).symm, hpw⟩

theorem specCutRanges_decomp (len : Int) : ∀ (cuts : List Int) (prev q : Int),
    ((cuts = [] ∧ q = prev) ∨ (∃ cl, cuts.getLast? = some cl ∧ q = cl + 1)) →
    specCutRanges len prev cuts
      = specCutPairs prev cuts ++ (if q < len then [(q, len)] else [])
  | [], prev, q, h => by
    rcases h with ⟨_, hq⟩ | ⟨cl, hcl, _⟩
    · subst hq
      simp [specCutRanges, specCutPairs]
    · simp at hcl
  | c :: rest, prev, q, h => by
    rcases h with ⟨hnil, _⟩ | ⟨cl, hcl, hq⟩
    · exact absurd hnil (by simp)
    · have hrec : specCutRanges len (c + 1) rest
          = specCutPairs (c + 1) rest ++ (if q < len then [(q, len)] else []) := by
        apply specCutRanges_decomp len rest (c + 1) q
        cases rest with
        | nil =>
          simp at hcl
          exact Or.inl ⟨rfl, by omega⟩
        | cons r2 t =>
          refine Or.inr ⟨cl, ?_, hq⟩
          simpa using hcl
      simp only [specCutRanges, specCutPairs, hrec, List.cons_append]

theorem buildLoop_gap (names : List String) (d : String) :
    ∀ (cuts : List Int) (prev : Int) (i : Nat) (acc : List (Int × Int × String)),
    cuts.Chain' (fun a b => a + 2 ≤ b) →
    (∀ c0, cuts.head? = some c0 → prev + 1 ≤ c0) →
    ∃ rs q, buildLoop names d cuts prev i acc = (acc ++ rs, q)
      ∧ rs.map (fun r => (r.1, r.2.1)) = specCutPairs prev cuts
      ∧ rs.length = cuts.length
      ∧ ((cuts = [] ∧ q = prev) ∨ (∃ cl, cuts.getLast? = some cl ∧ q = cl + 1))
  | [], prev, _i, acc, _, _ =>
    ⟨[], prev, by simp [buildLoop], rfl, rfl, Or.inl ⟨rfl, rfl⟩⟩
  | cut :: rest, prev, i, acc, hchain, hfirst => by
    have hgt : cut > prev := by
      have := hfirst cut rfl
      omega
    have hfirst2 : ∀ c0, rest.head? = some c0 → (cut + 1) + 1 ≤ c0 := by
      intro c0 hc0
      cases rest with
      | nil => simp at hc0
      | cons r2 t =>
        simp at hc0
        have := (List.chain'_cons.mp hchain).1
        omega
    obtain ⟨rs, q, heq, hmap2, hlen2, hq⟩ :=
      buildLoop_gap names d rest (cut + 1) (i + 1)
        (acc ++ [(prev, cut + 1, (if i < names.length then names.getD i d else d))])
        (List.Chain'.tail hchain) hfirst2
    refine ⟨(prev, cut + 1, (if i < names.length then names.getD i d else d)) :: rs, q,
            ?_, ?_, ?_, ?_⟩
    · simp only [buildLoop, if_pos hgt]
      rw [heq, List.append_assoc]
      rfl
    · simp only [List.map_cons, hmap2, specCutPairs]
    · simp [hlen2]
    · rcases hq with ⟨hrest, hqp⟩ | ⟨cl, hcl, hqcl⟩
      · subst hrest
        exact Or.inr ⟨cut, rfl, hqp⟩
      · refine Or.inr ⟨cl, ?_, hqcl⟩
        cases rest with
        | nil => simp at hcl
        | cons r2 t => simpa using hcl

/-- C3 (amended): when the resolved, deduplicated, sorted, in-range cuts
start at 1 or later and consecutive cuts differ by at least 2 (so that no
cut is absorbed by the `cut > prev` guard), the builder produces exactly
the consecutive half-open ranges in which each cut ends its own segment
inclusively, and one more segment than the number of valid cuts whenever
the final valid cut does not reach the end. -/
theorem C3_amended (tokens : List String) (msgs : List JVal) (d : String)
    (names : List String) (idxs : List Int) (cuts : List Int)
    (rs : List (Int × Int × String))
    (hne : msgs ≠ [])
    (hmap : tokens.mapM (index_for_token msgs) = .ok idxs)
    (hcuts : cuts = sortedDedup (idxs.filter fun i =>
      decide (0 ≤ i) && decide (i < (msgs.length : Int))))
    (hgap : cuts.Chain' (fun a b => a + 2 ≤ b))
    (hfirst : ∀ c0, cuts.head? = some c0 → 1 ≤ c0)
    (h : build_ranges_from_split_at tokens msgs d names = .ok rs) :
    rs.map (fun r => (r.1, r.2.1)) = specCutRanges (msgs.length : Int) 0 cuts
    ∧ (∀ cl, cuts.getLast? = some cl → cl + 1 < (msgs.length : Int) →
        rs.length = cuts.length + 1) := by
  have hlen : 0 < (msgs.length : Int) := by
    cases msgs with
    | nil => exact absurd rfl hne
    | cons m t =>
      have : 0 < (m :: t).length := Nat.succ_pos _
      exact_mod_cast this
  unfold build_ranges_from_split_at at h
  by_cases htok : tokens.isEmpty
  · rw [if_pos htok] at h
    injection h with h2
    subst h2
    have htok2 : tokens = [] := List.isEmpty_iff.mp htok
    subst htok2
    have hi : idxs = [] := by
      simp only [List.mapM_nil] at hmap
      exact (Except.ok.injEq _ _).mp hmap.symm ▸ rfl
    subst hi
    have hc : cuts = [] := by simpa [sortedDedup] using hcuts
    subst hc
    have hlen2 : 0 < msgs.length := by exact_mod_cast hlen
    constructor
    · simp [specCutRanges, hlen2]
    · intro cl hcl
      simp at hcl
  · rw [if_neg htok] at h
    rw [hmap] at h
    simp only [bind, Except.bind] at h
    rw [← hcuts] at h
    obtain ⟨rs0, q, heq, hproj, hcount, hq⟩ :=
      buildLoop_gap names d cuts 0 0 [] hgap
        (fun c0 hc0 => by have := hfirst c0 hc0; omega)
    rw [heq] at h
    simp only [List.nil_append] at h
    by_cases hfin : q < (msgs.length : Int)
    · rw [if_pos hfin] at h
      injection h with h2
      subst h2
      constructor
      · rw [List.map_append, hproj,
            specCutRanges_decomp (msgs.length : Int) cuts 0 q hq, if_pos hfin]
        simp
      · intro cl hcl hle
        simp [List.length_append, hcount]
    · rw [if_neg hfin] at h
      injection h with h2
      subst h2
      constructor
      · rw [hproj, specCutRanges_decomp (msgs.length : Int) cuts 0 q hq, if_neg hfin]
        simp
      · intro cl hcl hle
        rcases hq with ⟨hnil, _⟩ | ⟨cl2, hcl2, hq2⟩
        · rw [hnil] at hcl
          simp at hcl
        · rw [hcl2] at hcl
          have : cl2 = cl := by injection hcl
          omega

/-- Witness for C4 on the cut `3` over the ten-message conversation. -/
theorem C4_cover_witness :
    msgs10 ≠ []
    ∧ build_ranges_from_split_at ["3"] msgs10 "slice" []
        = .ok [(0, 4, "slice"), (4, 10, "slice")]
    ∧ ((∀ i : Int, (0 ≤ i ∧ i < (msgs10.length : Int)) ↔
          ∃ r ∈ [((0 : Int), (4 : Int), "slice"), ((4 : Int), (10 : Int), "slice")],
            r.1 ≤ i ∧ i < r.2.1)
       ∧ [((0 : Int), (4 : Int), "slice"), ((4 : Int), (10 : Int), "slice")].Pairwise
           (fun r s => r.2.1 ≤ s.1)) :=
  ⟨by simp [msgs10], rfl,
   C4_cover ["3"] msgs10 "slice" []
     [((0 : Int), (4 : Int), "slice"), ((4 : Int), (10 : Int), "slice")]
     (by simp [msgs10]) rfl⟩

/-- Witness for C3 (amended) on the cuts `3`, `6` over the ten-message
conversation. -/
theorem C3_amended_witness :
    msgs10 ≠ []
    ∧ (["3", "6"].mapM (index_for_token msgs10) = .ok [3, 6])
    ∧ (([3, 6] : List Int) = sortedDedup (([3, 6] : List Int).filter fun i =>
        decide (0 ≤ i) && decide (i < (msgs10.length : Int))))
    ∧ build_ranges_from_split_at ["3", "6"] msgs10 "slice" []
        = .ok [(0, 4, "slice"), (4, 7, "slice"), (7, 10, "slice")]
    ∧ ([((0 : Int), (4 : Int), "slice"), ((4 : Int), (7 : Int), "slice"),
        ((7 : Int), (10 : Int), "slice")].map (fun r => (r.1, r.2.1))
          = specCutRanges (msgs10.length : Int) 0 [3, 6]
       ∧ (∀ cl, ([3, 6] : List Int).getLast? = some cl →
            cl + 1 < (msgs10.length : Int) →
            [((0 : Int), (4 : Int), "slice"), ((4 : Int), (7 : Int), "slice"),
             ((7 : Int), (10 : Int), "slice")].length = ([3, 6] : List Int).length + 1)) :=
  ⟨by simp [msgs10], rfl, rfl, rfl,
   C3_amended ["3", "6"] msgs10 "slice" [] [3, 6] [3, 6]
     [((0 : Int), (4 : Int), "slice"), ((4 : Int), (7 : Int), "slice"),
      ((7 : Int), (10 : Int), "slice")]
     (by simp [msgs10]) rfl rfl
     (by rw [List.chain'_cons]; exact ⟨by omega, List.chain'_singleton _⟩)
     (fun c0 hc0 => by simp at hc0; omega) rfl⟩

theorem SplitsOk_mono : ∀ (sp : List (Nat × String)) (p1 p2 len : Nat),
    SplitsOk sp p2 len → p1 ≤ p2 → SplitsOk sp p1 len
  | [], _, _, _, _, _ => trivial
  | (_, _) :: _, _, _, _, h, hle => ⟨le_trans hle h.1, h.2.1, h.2.2⟩

theorem findSplitsGo_ok (search : String → Option (Option String)) :
    ∀ (msgs : List JVal) (n : Nat) (sp : List (Nat × String)),
    findSplitsGo search n msgs = .ok sp → SplitsOk sp n (n + msgs.length)
  | [], n, sp, h => by
    have hsp : sp = [] := by simpa [findSplitsGo] using h.symm
    subst hsp
    trivial
  | m :: rest, n, sp, h => by
    unfold findSplitsGo at h
    cases hc : contentForSplit m with
    | error e => rw [hc] at h; exact absurd h (by simp)
    | ok c =>
      rw [hc] at h
      cases ht : findSplitsGo search (n + 1) rest with
      | error e => rw [ht] at h; exact absurd h (by simp)
      | ok tail =>
        rw [ht] at h
        dsimp only at h
        have ihr := findSplitsGo_ok search rest (n + 1) tail ht
        have hlen : (n + 1) + rest.length = n + (m :: rest).length := by
          simp; omega
        rw [hlen] at ihr
        cases hs : search c with
        | some g =>
          rw [hs] at h
          have hsp : (n, pyStrip (g.getD "")) :: tail = sp := by simpa using h
          subst hsp
          exact ⟨le_refl n, by simp, ihr⟩
        | none =>
          rw [hs] at h
          have hsp : tail = sp := by simpa using h
          subst hsp
          exact SplitsOk_mono _ n (n + 1) _ ihr (by omega)

theorem suffixNamed_proj : ∀ (counts : List (String × Nat)) (l : List (String × Nat × Nat)),
    (suffixNamed counts l).map (fun r => r.2) = l.map (fun r => r.2)
  | _, [] => rfl
  | counts, (base, a, b) :: rest => by
    simp only [suffixNamed, List.map_cons]
    rw [suffixNamed_proj]

theorem sliceLoop_bridge (d : String) (len : Nat) :
    ∀ (splits : List (Nat × String)) (prev : Nat) (acc : List (String × Nat × Nat)),
    (if (sliceLoop d splits prev acc).2 < len
      then (sliceLoop d splits prev acc).1 ++ [(d, (sliceLoop d splits prev acc).2, len)]
      else (sliceLoop d splits prev acc).1)
    = acc ++ sliceRangesSpec d len splits prev
  | [], prev, acc => by
    simp only [sliceLoop, sliceRangesSpec]
    by_cases h : prev < len
    · rw [if_pos h, if_pos h]
    · rw [if_neg h, if_neg h]
      simp
  | (sidx, name) :: rest, prev, acc => by
    simp only [sliceLoop, sliceRangesSpec]
    rw [sliceLoop_bridge d len rest (sidx + 1)]
    by_cases h : sidx > prev
    · rw [if_pos h, if_pos h]
      simp [List.append_assoc]
    · rw [if_neg h, if_neg h]
      simp

theorem slice_messages_eq (msgs : List JVal) (splits : List (Nat × String)) (d : String)
    (hne : splits ≠ []) :
    slice_messages msgs splits d = suffixNamed [] (sliceRangesSpec d msgs.length splits 0) := by
  unfold slice_messages
  rw [if_neg (by simpa using hne)]
  dsimp only
  have hb := sliceLoop_bridge d msgs.length splits 0 []
  simp only [List.nil_append] at hb
  rw [hb]

theorem concatSlices_eq (msgs : List JVal) (splits : List (Nat × String)) (d : String)
    (hne : splits ≠ []) :
    concatSlices msgs splits d = concatFrom msgs d splits 0 := by
  unfold concatSlices concatFrom
  rw [slice_messages_eq msgs splits d hne]
  have hmap : (suffixNamed [] (sliceRangesSpec d msgs.length splits 0)).map
        (fun r => pySlice msgs r.2.1 r.2.2)
      = (sliceRangesSpec d msgs.length splits 0).map (fun r => pySlice msgs r.2.1 r.2.2) := by
    have h1 := congrArg (List.map (fun q : Nat × Nat => pySlice msgs q.1 q.2))
      (suffixNamed_proj [] (sliceRangesSpec d msgs.length splits 0))
    simpa [List.map_map, Function.comp] using h1
  rw [hmap]

theorem insertIdx_append_length : ∀ (l1 l2 : List JVal) (x : JVal),
    (l1 ++ l2).insertIdx l1.length x = l1 ++ x :: l2
  | [], l2, x => rfl
  | a :: t, l2, x => by
    simp only [List.length_cons, List.cons_append, List.insertIdx_succ_cons]
    rw [insertIdx_append_length t l2 x]

theorem reinsertAll_cons (s : Nat) (v : JVal) (ps : List (Nat × JVal)) (xs : List JVal) :
    reinsertAll ((s, v) :: ps) xs = reinsertAll ps (xs.insertIdx s v) := rfl

theorem reinsert_concat (msgs : List JVal) (d : String) :
    ∀ (splits : List (Nat × String)) (prev : Nat) (pre : List JVal),
    pre.length = prev → prev ≤ msgs.length → SplitsOk splits prev msgs.length →
    reinsertAll (splits.map fun p => (p.1, msgs.getD p.1 .null))
        (pre ++ concatFrom msgs d splits prev)
      = pre ++ msgs.drop prev
  | [], prev, pre, hpre, hle, _ => by
    unfold concatFrom sliceRangesSpec
    by_cases h : prev < msgs.length
    · rw [if_pos h]
      have hsl : pySlice msgs prev msgs.length = msgs.drop prev := by
        unfold pySlice
        apply List.take_of_length_le
        simp [List.length_drop]
      simp [reinsertAll, hsl]
    · rw [if_neg h]
      have hdr : msgs.drop prev = [] := List.drop_eq_nil_of_le (by omega)
      simp [reinsertAll, hdr]
  | (s, nm) :: rest, prev, pre, hpre, hle, hok => by
    obtain ⟨h1, h2, h3⟩ := hok
    have hcf : concatFrom msgs d ((s, nm) :: rest) prev
        = (msgs.drop prev).take (s - prev) ++ concatFrom msgs d rest (s + 1) := by
      have hstep : sliceRangesSpec d msgs.length ((s, nm) :: rest) prev
          = (if s > prev then [((if nm = "" then d else nm), prev, s)] else [])
            ++ sliceRangesSpec d msgs.length rest (s + 1) := rfl
      unfold concatFrom
      rw [hstep]
      by_cases h : s > prev
      · rw [if_pos h]
        simp only [List.map_append, List.flatten_append, List.map_cons, List.map_nil,
          List.flatten_cons, List.flatten_nil, List.append_nil]
        rfl
      · rw [if_neg h]
        have hz : s - prev = 0 := by omega
        simp only [List.nil_append, hz, List.take_zero]
    rw [hcf, List.map_cons, reinsertAll_cons]
    have hlen1 : (pre ++ (msgs.drop prev).take (s - prev)).length = s := by
      simp only [List.length_append, List.length_take, List.length_drop, hpre]
      omega
    have hins := insertIdx_append_length (pre ++ (msgs.drop prev).take (s - prev))
      (concatFrom msgs d rest (s + 1)) (msgs.getD s .null)
    rw [hlen1] at hins
    rw [show pre ++ ((msgs.drop prev).take (s - prev) ++ concatFrom msgs d rest (s + 1))
          = (pre ++ (msgs.drop prev).take (s - prev)) ++ concatFrom msgs d rest (s + 1)
        from (List.append_assoc _ _ _).symm,
       hins, List.append_cons]
    have hpre2 : (pre ++ (msgs.drop prev).take (s - prev) ++ [msgs.getD s .null]).length = s + 1 := by
      rw [List.length_append, hlen1]
      rfl
    have ihr := reinsert_concat msgs d rest (s + 1)
      (pre ++ (msgs.drop prev).take (s - prev) ++ [msgs.getD s .null]) hpre2 (by omega) h3
    rw [ihr]
    have e2 : (msgs.drop prev).drop (s - prev) = msgs.drop s := by
      rw [List.drop_drop]
      congr 1
      omega
    have e3 : msgs.drop s = msgs.getD s .null :: msgs.drop (s + 1) := by
      rw [List.drop_eq_getElem_cons h2, List.getD_eq_getElem msgs .null h2]
    have hfin : (msgs.drop prev).take (s - prev) ++ msgs.getD s .null :: msgs.drop (s + 1)
        = msgs.drop prev := by
      conv_rhs => rw [← List.take_append_drop (s - prev) (msgs.drop prev)]
      rw [e2, e3]
    simp only [List.append_assoc, List.singleton_append]
    rw [hfin]

/-- C5: for every message sequence split by inline markers, concatenating
all produced slices' message subsequences in range order and re-inserting
the dropped marker messages at their original canonical indices (in
ascending order) reconstructs the original message sequence exactly. -/
theorem C5_reconstruction (search : String → Option (Option String)) (msgs : List JVal)
    (splits : List (Nat × String)) (d : String)
    (h : find_splits search msgs = .ok splits) :
    reinsertAll (splits.map fun p => (p.1, msgs.getD p.1 .null))
      (concatSlices msgs splits d) = msgs := by
  by_cases hsp : splits = []
  · subst hsp
    have h0 : concatSlices msgs [] d = msgs := by
      unfold concatSlices slice_messages
      simp only [List.isEmpty_nil, if_true, List.map_cons, List.map_nil, List.flatten_cons,
        List.flatten_nil, List.append_nil, pySlice, List.drop_zero, Nat.sub_zero]
      exact List.take_of_length_le (le_refl _)
    simpa [reinsertAll] using h0
  · have hok : SplitsOk splits 0 msgs.length := by
      have h2 := findSplitsGo_ok search msgs 0 splits h
      simpa using h2
    have h3 := reinsert_concat msgs d splits 0 [] rfl (by omega) hok
    simpa [concatSlices_eq msgs splits d hsp] using h3

/-- Witness for C5 on the ten-message conversation with one marker. -/
theorem C5_reconstruction_witness :
    find_splits searchAct2 msgs10 = .ok [(4, "Act2")]
    ∧ reinsertAll ([((4 : Nat), "Act2")].map fun p => (p.1, msgs10.getD p.1 .null))
        (concatSlices msgs10 [(4, "Act2")] "slice") = msgs10 :=
  ⟨rfl, C5_reconstruction searchAct2 msgs10 [(4, "Act2")] "slice" rfl⟩

theorem lookup_dictSet_ne (k k' : String) (v : JVal) (hne : k' ≠ k) :
    ∀ (fs : List (String × JVal)), (dictSet fs k v).lookup k' = fs.lookup k' := by
  have hkk : (k' == k) = false := by simpa using hne
  intro fs
  unfold dictSet
  by_cases h : fs.any (fun p => p.1 == k)
  · rw [if_pos h]
    clear h
    induction fs with
    | nil => rfl
    | cons a t ih =>
      obtain ⟨a1, a2⟩ := a
      by_cases h2 : (a1 == k) = true
      · have ha : a1 = k := by simpa using h2
        subst ha
        rw [List.map_cons]
        dsimp only
        rw [if_pos h2]
        simp only [List.lookup, hkk, ih]
      · rw [List.map_cons]
        dsimp only
        rw [if_neg h2]
        simp only [List.lookup]
        cases h5 : k' == a1
        · simp only [ih]
        · rfl
  · rw [if_neg h]
    clear h
    induction fs with
    | nil => simp [List.lookup, hkk]
    | cons a t ih =>
      obtain ⟨a1, a2⟩ := a
      rw [List.cons_append]
      simp only [List.lookup]
      cases h5 : k' == a1
      · simp only [ih]
      · rfl

theorem ctKey_decorateNode (i : Nat) (m : JVal) : ctKey (decorateNode i m) = ctKey m := by
  cases m with
  | obj fs =>
    simp only [decorateNode, ctKey, pyGet, JVal.get?]
    rw [lookup_dictSet_ne "_orig_id" "create_time" _ (by simp),
        lookup_dictSet_ne "_index" "create_time" _ (by simp)]
  | null => rfl
  | bool b => rfl
  | num n => rfl
  | str s => rfl
  | arr xs => rfl

theorem stripIdx_decorateNode (i : Nat) (m : JVal) (h : noDecorKeys m) :
    stripIdx (decorateNode i m) = decorNoIdx m := by
  cases m with
  | obj fs =>
    have h1 : dictSet fs "_index" (.num (i : Int)) = fs ++ [("_index", .num (i : Int))] :=
      dictSet_append fs _ _ (fun p hp => (h p hp).1)
    have h2 : dictSet (fs ++ [("_index", .num (i : Int))]) "_orig_id"
          (pyOr (pyGet (.obj fs) "id") (pyGet (.obj fs) "_node_id"))
        = fs ++ [("_index", .num (i : Int))]
            ++ [("_orig_id", pyOr (pyGet (.obj fs) "id") (pyGet (.obj fs) "_node_id"))] := by
      apply dictSet_append
      intro p hp
      rcases List.mem_append.mp hp with h3 | h3
      · exact (h p h3).2
      · simp at h3; subst h3; simp
    have h4 : dictSet fs "_orig_id" (pyOr (pyGet (.obj fs) "id") (pyGet (.obj fs) "_node_id"))
        = fs ++ [("_orig_id", pyOr (pyGet (.obj fs) "id") (pyGet (.obj fs) "_node_id"))] :=
      dictSet_append fs _ _ (fun p hp => (h p hp).2)
    simp only [decorateNode, stripIdx, decorNoIdx, h1, h2, h4]
    rw [List.filter_append, List.filter_append]
    have hf1 : List.filter (fun p => !(p.1 == "_index")) fs = fs := by
      rw [List.filter_eq_self]
      intro p hp
      simp [(h p hp).1]
    have hf2 : List.filter (fun p : String × JVal => !(p.1 == "_index"))
        [("_index", JVal.num (i : Int))] = [] := by simp
    have hf3 : List.filter (fun p : String × JVal => !(p.1 == "_index"))
        [("_orig_id", pyOr (pyGet (JVal.obj fs) "id") (pyGet (JVal.obj fs) "_node_id"))]
        = [("_orig_id", pyOr (pyGet (JVal.obj fs) "id") (pyGet (JVal.obj fs) "_node_id"))] := by
      simp
    rw [hf1, hf2, hf3, List.append_nil]
  | null => rfl
  | bool b => rfl
  | num n => rfl
  | str s => rfl
  | arr xs => rfl

theorem extractNode_shape (nodeId : String) (node : JVal) (m : JVal)
    (h : extractNode nodeId node = .ok (some m)) : noDecorKeys m := by
  unfold extractNode at h
  cases node with
  | obj nfs =>
    dsimp only at h
    by_cases ht : ((nfs.lookup "message").getD .null).truthy
    · rw [if_pos ht] at h
      cases hmsg : (nfs.lookup "message").getD .null with
      | obj mfs =>
        rw [hmsg] at h
        dsimp only at h
        cases hpt : partsText ((mfs.lookup "content").getD .null) with
        | error e => rw [hpt] at h; simp [bind, Except.bind] at h
        | ok ctext =>
          rw [hpt] at h
          cases hrv : roleVal (.obj mfs) with
          | error e => rw [hrv] at h; simp [bind, Except.bind] at h
          | ok role =>
            rw [hrv] at h
            simp only [bind, Except.bind] at h
            have hm : JVal.obj
                [("role", role), ("content", .str ctext),
                 ("create_time", (mfs.lookup "create_time").getD .null),
                 ("id", pyOr ((mfs.lookup "id").getD .null) .null),
                 ("_node_id", .str nodeId)] = m := by
              simpa using h
            rw [← hm]
            intro p hp
            simp only [List.mem_cons, List.not_mem_nil, or_false] at hp
            rcases hp with hp | hp | hp | hp | hp <;> (subst hp; simp)
      | null => rw [hmsg] at h; simp at h
      | bool b => rw [hmsg] at h; simp at h
      | num n => rw [hmsg] at h; simp at h
      | str s => rw [hmsg] at h; simp at h
      | arr xs => rw [hmsg] at h; simp at h
    · rw [if_neg ht] at h
      simp at h
  | null => simp at h
  | bool b => simp at h
  | num n => simp at h
  | str s => simp at h
  | arr xs => simp at h

theorem extractNodes_mem : ∀ (mapping : List (String × JVal)) (nodes : List JVal),
    extractNodes mapping = .ok nodes →
    ∀ m ∈ nodes, ∃ p ∈ mapping, extractNode p.1 p.2 = .ok (some m)
  | [], nodes, h, m, hm => by
    have : nodes = [] := by simpa [extractNodes] using h.symm
    subst this
    simp at hm
  | q :: rest, nodes, h, m, hm => by
    unfold extractNodes at h
    cases he : extractNode q.1 q.2 with
    | error e => rw [he] at h; simp at h
    | ok od =>
      rw [he] at h
      cases od with
      | none =>
        obtain ⟨p, hp, hex⟩ := extractNodes_mem rest nodes h m hm
        exact ⟨p, by simp [hp], hex⟩
      | some v =>
        cases hrest : extractNodes rest with
        | error e => rw [hrest] at h; simp at h
        | ok ms =>
          rw [hrest] at h
          have hn : v :: ms = nodes := by simpa using h
          subst hn
          rcases List.mem_cons.mp hm with hm2 | hm2
          · subst hm2
            exact ⟨q, by simp, he⟩
          · obtain ⟨p, hp, hex⟩ := extractNodes_mem rest ms hrest m hm2
            exact ⟨p, by simp [hp], hex⟩

theorem ctLE_trans : ∀ (a b c : JVal), ctLE a b = true → ctLE b c = true → ctLE a c = true := by
  intro a b c h1 h2
  simp only [ctLE, decide_eq_true_eq] at h1 h2 ⊢
  omega

theorem ctLE_total : ∀ (a b : JVal), (ctLE a b || ctLE b a) = true := by
  intro a b
  simp only [ctLE, Bool.or_eq_true, decide_eq_true_eq]
  omega

theorem mergeSort_filter_stable (nodes : List JVal) (t : Int) :
    (nodes.mergeSort ctLE).filter (fun m => ctKey m == t)
      = nodes.filter (fun m => ctKey m == t) := by
  have hmem : ∀ a ∈ nodes.filter (fun m => ctKey m == t), ctKey a = t := by
    intro a ha
    have := (List.mem_filter.mp ha).2
    simpa using this
  have hcp : (nodes.filter (fun m => ctKey m == t)).Pairwise (fun a b => ctLE a b = true) := by
    apply List.pairwise_of_forall_mem_list
    intro a ha b hb
    simp only [ctLE, decide_eq_true_eq]
    rw [hmem a ha, hmem b hb]
  have hsub : List.Sublist (nodes.filter (fun m => ctKey m == t)) nodes :=
    List.filter_sublist _
  have h1 : List.Sublist (nodes.filter (fun m => ctKey m == t)) (nodes.mergeSort ctLE) :=
    List.sublist_mergeSort ctLE_trans ctLE_total hcp hsub
  have h2 : (nodes.filter (fun m => ctKey m == t)).filter (fun m => ctKey m == t)
      = nodes.filter (fun m => ctKey m == t) :=
    List.filter_eq_self.mpr (fun a ha => (List.mem_filter.mp ha).2)
  have h3 : List.Sublist (nodes.filter (fun m => ctKey m == t))
      ((nodes.mergeSort ctLE).filter (fun m => ctKey m == t)) := by
    have h5 := List.Sublist.filter (fun m => ctKey m == t) h1
    rwa [h2] at h5
  have h4 : ((nodes.mergeSort ctLE).filter (fun m => ctKey m == t)).Perm
      (nodes.filter (fun m => ctKey m == t)) :=
    (List.mergeSort_perm nodes ctLE).filter _
  exact (h3.eq_of_length h4.length_eq.symm).symm

theorem enumFrom_snd_mem : ∀ (n : Nat) (l : List JVal) (p : Nat × JVal),
    p ∈ List.enumFrom n l → p.2 ∈ l
  | _, [], p, hp => by simp at hp
  | n, a :: l, p, hp => by
    rw [List.enumFrom_cons] at hp
    rcases List.mem_cons.mp hp with h | h
    · subst h
      simp
    · exact List.mem_cons_of_mem _ (enumFrom_snd_mem (n + 1) l p h)

theorem decorate_pairwise : ∀ (n : Nat) (l : List JVal),
    l.Pairwise (fun a b => ctKey a ≤ ctKey b) →
    ((List.enumFrom n l).map (fun p => decorateNode p.1 p.2)).Pairwise
      (fun a b => ctKey a ≤ ctKey b)
  | _, [], _ => by simp
  | n, a :: l, h => by
    rw [List.enumFrom_cons, List.map_cons]
    obtain ⟨hhead, htail⟩ := List.pairwise_cons.mp h
    refine List.Pairwise.cons ?_ (decorate_pairwise (n + 1) l htail)
    intro y hy
    obtain ⟨p, hp, hpy⟩ := List.mem_map.mp hy
    subst hpy
    have hm := enumFrom_snd_mem (n + 1) l p hp
    rw [ctKey_decorateNode, ctKey_decorateNode]
    exact hhead p.2 hm

theorem decorate_filter_strip (t : Int) : ∀ (n : Nat) (l : List JVal),
    (∀ m ∈ l, noDecorKeys m) →
    (((List.enumFrom n l).map (fun p => decorateNode p.1 p.2)).filter
        (fun m => ctKey m == t)).map stripIdx
      = (l.filter (fun m => ctKey m == t)).map decorNoIdx
  | _, [], _ => rfl
  | n, a :: l, h => by
    rw [List.enumFrom_cons, List.map_cons]
    dsimp only
    have hk : ctKey (decorateNode n a) = ctKey a := ctKey_decorateNode n a
    have hrec := decorate_filter_strip t (n + 1) l (fun m hm => h m (by simp [hm]))
    by_cases hQ : (ctKey a == t) = true
    · rw [@List.filter_cons_of_pos _ (fun m => ctKey m == t) (decorateNode n a)
            ((List.enumFrom (n + 1) l).map (fun p => decorateNode p.1 p.2))
            (by simpa [hk] using hQ),
          List.map_cons,
          @List.filter_cons_of_pos _ (fun m => ctKey m == t) a l hQ,
          List.map_cons, stripIdx_decorateNode n a (h a (by simp)), hrec]
    · rw [@List.filter_cons_of_neg _ (fun m => ctKey m == t) (decorateNode n a)
            ((List.enumFrom (n + 1) l).map (fun p => decorateNode p.1 p.2))
            (by simpa [hk] using hQ),
          @List.filter_cons_of_neg _ (fun m => ctKey m == t) a l (by simpa using hQ),
          hrec]

/-- C6: for every mapping-tree record whose extraction succeeds and whose
timestamps are numeric-or-missing, the normalized output is sorted by
non-decreasing timestamp key (missing treated as zero), and for each
timestamp value the same-key messages, stripped of their positional
`_index` decoration, are exactly the same-key extracted nodes in the
encounter order of the source mapping (decorated position-independently)
— i.e. ties preserve source-encounter order. -/
theorem C6_sorted_stable (mapping : List (String × JVal)) (nodes msgs : List JVal)
    (hn : extractNodes mapping = .ok nodes)
    (h : loadMappingMessages mapping = .ok msgs)
    (_ht : ctTyped mapping = true) :
    msgs.Pairwise (fun a b => ctKey a ≤ ctKey b)
    ∧ ∀ t : Int, (msgs.filter (fun m => ctKey m == t)).map stripIdx
        = (nodes.filter (fun m => ctKey m == t)).map decorNoIdx := by
  unfold loadMappingMessages at h
  rw [hn] at h
  have hm : msgs = (sortNodes nodes).enum.map (fun p => decorateNode p.1 p.2) := by
    simpa using h.symm
  subst hm
  have hsorted : (sortNodes nodes).Pairwise (fun a b => ctLE a b = true) :=
    List.sorted_mergeSort ctLE_trans ctLE_total nodes
  have hsorted2 : (sortNodes nodes).Pairwise (fun a b => ctKey a ≤ ctKey b) := by
    refine hsorted.imp ?_
    intro a b hab
    simpa [ctLE] using hab
  have hshape : ∀ m ∈ sortNodes nodes, noDecorKeys m := by
    intro m hm2
    have hmn : m ∈ nodes := by
      have hms : m ∈ nodes.mergeSort ctLE := by simpa [sortNodes] using hm2
      exact List.mem_mergeSort.mp hms
    obtain ⟨p, hp, hex⟩ := extractNodes_mem mapping nodes hn m hmn
    exact extractNode_shape p.1 p.2 m hex
  constructor
  · rw [List.enum]
    exact decorate_pairwise 0 (sortNodes nodes) hsorted2
  · intro t
    rw [List.enum, decorate_filter_strip t 0 (sortNodes nodes) hshape]
    have hstab := mergeSort_filter_stable nodes t
    rw [show (sortNodes nodes).filter (fun m => ctKey m == t)
          = nodes.filter (fun m => ctKey m == t) from hstab]

/-- Witness for C6 on the Example 2 mapping (timestamps 30, 10, 20). -/
theorem C6_sorted_stable_witness :
    extractNodes mapping3 = .ok nodes3
    ∧ loadMappingMessages mapping3 = .ok msgs3
    ∧ ctTyped mapping3 = true
    ∧ (msgs3.Pairwise (fun a b => ctKey a ≤ ctKey b)
       ∧ ∀ t : Int, (msgs3.filter (fun m => ctKey m == t)).map stripIdx
           = (nodes3.filter (fun m => ctKey m == t)).map decorNoIdx) := by
  have hn : extractNodes mapping3 = .ok nodes3 := rfl
  have hsort : sortNodes nodes3
      = [node3 "b" 10 "n2", node3 "c" 20 "n3", node3 "a" 30 "n1"] := by
    simp [sortNodes, List.mergeSort, List.splitInTwo, List.merge, ctLE, ctKey,
      node3, nodes3, pyGet, JVal.get?, pyOr, JVal.truthy, List.lookup]
  have h : loadMappingMessages mapping3 = .ok msgs3 := by
    unfold loadMappingMessages
    rw [hn]
    dsimp only
    rw [hsort]
    rfl
  exact ⟨hn, h, rfl, C6_sorted_stable mapping3 nodes3 msgs3 hn h rfl⟩
